import Mathlib

/-!
Verification of the bible-planner-backend scheduling core.

Shallow embedding of:
  * `split` (src/utils/utils.py): integer partition of a total into n
    nearly-equal parts with a GCD-normalized interleaving order.
  * `get_day_reading_text` and `generate_plan` (src/utils/generator.py):
    the recursive per-day range-text algorithm and the day loop that
    consumes per-day quotas against an ordered list of books.

Python integers are modelled as `Nat` (for `split`, whose relevant domain
is nonnegative) and `Int` (for the generator's chapter arithmetic).
Python exceptions (ValueError, IndexError) are modelled as `none` of an
`Option` result.  Dates are modelled as integer day offsets; formatting
and CSV output carry no algorithmic content and are out of scope.
-/

/-- One block appended per iteration of the reorder loop in `split`
(src/utils/utils.py lines 52-63): with `hi > lo`, `lo` pairs
`(pp, pp+1)` followed by `hi - lo` copies of `pp + 1`; otherwise `hi`
pairs `(pp, pp+1)` followed by `lo - hi` copies of `pp`. -/
def splitBlock (pp hi lo : Nat) : List Nat :=
  if hi > lo then
    (List.replicate lo [pp, pp + 1]).flatten ++ List.replicate (hi - lo) (pp + 1)
  else
    (List.replicate hi [pp, pp + 1]).flatten ++ List.replicate (lo - hi) pp

/-- The `while i < n` loop of `split` (src/utils/utils.py lines 50-65):
each iteration appends one `splitBlock` and advances `i` by `lo + hi`.
The loop is bounded by a fuel argument so the model is structurally
recursive; `split` passes fuel `n`, which is sufficient because each
pass advances `i` by `lo + hi ≥ 1` there (when `lo + hi = 0` the Python
loop would diverge, a case unreachable from `split` since `hi ≥ 1`). -/
def splitLoop (pp hi lo n : Nat) : Nat → Nat → List Nat
  | _, 0 => []
  | i, fuel + 1 =>
    if i < n then
      splitBlock pp hi lo ++ splitLoop pp hi lo n (i + (lo + hi)) fuel
    else
      []

/-- The partition function `split(x, n)` of src/utils/utils.py.
Raising `ValueError("Not possible to split")` is modelled as `none`.
Python's `int(high / cd)` and `int(zp / cd)` are exact divisions (the
gcd divides both counts, and the quotients are far below the float
precision limit on realistic inputs) and are modelled as `Nat` division. -/
def split (x n : Nat) : Option (List Nat) :=
  if x < n then
    none
  else if x % n = 0 then
    some (List.replicate n (x / n))
  else
    let zp := n - x % n
    let pp := x / n
    let high := n - zp
    let cd := if high > zp then Nat.gcd high zp else Nat.gcd zp high
    let hi := high / cd
    let lo := zp / cd
    some (splitLoop pp hi lo n 0 n)

/-- A book as used by src/utils/generator.py: the metadata dict entries
`{"name": ..., "chapters": ...}` (the unused "verses" field is dropped). -/
structure Book where
  name : String
  chapters : Int
deriving Repr, DecidableEq

/-- The recursion of `get_day_reading_text` (src/utils/generator.py lines
111-147), expressed on the suffix `meta[b:]` of the book list: the head of
the suffix is `meta[b]` and the recursive call at `b + 1` becomes a call on
the tail.  An empty suffix models the IndexError raised by `meta[b]`. -/
def getDayReadingTextAux : List Book → Int → Int → Option String
  | [], _, _ => none
  | book :: rest, currChapter, day =>
    if currChapter + day - 1 ≤ book.chapters then
      some (book.name ++ " " ++
        (if day ≠ 1 then
          toString currChapter ++ "-" ++ toString (currChapter + day - 1)
         else
          toString currChapter))
    else
      (getDayReadingTextAux rest 1 (day - (book.chapters - currChapter) - 1)).map
        (fun t => (book.name ++ " " ++
          (if currChapter ≠ book.chapters then
            toString currChapter ++ "-" ++ toString book.chapters ++ "; "
           else
            toString currChapter ++ "; ")) ++ t)

/-- `get_day_reading_text(meta, b, curr_chapter, day)` of
src/utils/generator.py. -/
def getDayReadingText (meta : List Book) (b : Nat) (currChapter day : Int) :
    Option String :=
  getDayReadingTextAux (meta.drop b) currChapter day

/-- The same recursion as `getDayReadingTextAux` but returning the list of
per-book segments instead of the already-joined string; used to state how
many books a day's reading spans. -/
def getDayReadingSegsAux : List Book → Int → Int → Option (List String)
  | [], _, _ => none
  | book :: rest, currChapter, day =>
    if currChapter + day - 1 ≤ book.chapters then
      some [book.name ++ " " ++
        (if day ≠ 1 then
          toString currChapter ++ "-" ++ toString (currChapter + day - 1)
         else
          toString currChapter)]
    else
      (getDayReadingSegsAux rest 1 (day - (book.chapters - currChapter) - 1)).map
        (fun ts => (book.name ++ " " ++
          (if currChapter ≠ book.chapters then
            toString currChapter ++ "-" ++ toString book.chapters
           else
            toString currChapter)) :: ts)

/-- Segment list of a day's reading, indexed like `getDayReadingText`. -/
def getDayReadingSegs (meta : List Book) (b : Nat) (currChapter day : Int) :
    Option (List String) :=
  getDayReadingSegsAux (meta.drop b) currChapter day

/-- Join segments with the separator used by `get_day_reading_text`. -/
def joinSegs : List String → String
  | [] => ""
  | [s] => s
  | s :: rest => s ++ "; " ++ joinSegs rest

/-- The cursor-advance `while` loop of `generate_plan`
(src/utils/generator.py lines 192-195), on the suffix `meta[b+1:]`:
`b = b + 1; curr_chapter = curr_chapter - curr_book.chapters;
curr_book = meta[b]`, repeated while `curr_chapter > curr_book.chapters`.
An exhausted suffix models the IndexError raised by `meta[b]`. -/
def advanceLoopAux : Book → List Book → Nat → Int → Option (Nat × Int × Book)
  | book, rest, b, c =>
    if book.chapters < c then
      match rest with
      | [] => none
      | next :: rest' => advanceLoopAux next rest' (b + 1) (c - book.chapters)
    else
      some (b, c, book)

/-- The cursor-advance loop with the books after index `b` taken from
`meta`; `book` is the currently held `curr_book` (equal to `meta[b]` in
every reachable call). -/
def advanceLoop (meta : List Book) (b : Nat) (c : Int) (book : Book) :
    Option (Nat × Int × Book) :=
  advanceLoopAux book (meta.drop (b + 1)) b c

/-- The `for i, day in enumerate(chapters_per_day)` loop of `generate_plan`
(src/utils/generator.py lines 186-196).  Each iteration renders one row
`(date, text)`; on every day except the last the date is advanced by one
and the cursor is advanced by the day's quota.  The result carries the
rows together with the final `b` and `curr_chapter`.  Dates are modelled
as integer day offsets. -/
def generatePlanLoop (meta : List Book) :
    List Int → Nat → Int → Book → Int → Option (List (Int × String) × Nat × Int)
  | [], b, c, _, _ => some ([], b, c)
  | day :: rest, b, c, book, date =>
    match getDayReadingText meta b c day with
    | none => none
    | some text =>
      match rest with
      | [] => some ([(date, text)], b, c)
      | _ :: _ =>
        match advanceLoop meta b (c + day) book with
        | none => none
        | some (b', c', book') =>
          match generatePlanLoop meta rest b' c' book' (date + 1) with
          | none => none
          | some (rows, bf, cf) => some ((date, text) :: rows, bf, cf)

/-- The quota list computed by `generate_plan` (src/utils/generator.py
lines 165-170): `split(chapters, duration)`, or on ValueError the fallback
`[1 for _ in range(chapters)]`. -/
def chaptersPerDayList (chapters duration : Nat) : List Nat :=
  match split chapters duration with
  | some l => l
  | none => List.replicate chapters 1

/-- `generate_plan(meta, duration, start, chapters)` of
src/utils/generator.py, restricted to its algorithmic core: the CSV/file
output is represented by the list of rows.  `meta[0]` on an empty book
list (IndexError) is modelled as `none`. -/
def generate_plan (meta : List Book) (duration : Nat) (start : Int)
    (chapters : Nat) : Option (List (Int × String) × Nat × Int) :=
  match meta with
  | [] => none
  | book0 :: _ =>
    generatePlanLoop meta ((chaptersPerDayList chapters duration).map
      (fun q => Int.ofNat q)) 0 1 book0 start

/-- Sum of the capacities of the books strictly before index `b`. -/
def capsBefore (meta : List Book) (b : Nat) : Int :=
  ((meta.take b).map (fun bk => bk.chapters)).sum

/-- Sum of all book capacities. -/
def totalCaps (meta : List Book) : Int :=
  (meta.map (fun bk => bk.chapters)).sum

/-- Capacity still available in a suffix of the book list when the cursor
stands at 1-based position `c` inside its head. -/
def availCaps (books : List Book) (c : Int) : Int :=
  (books.map (fun bk => bk.chapters)).sum - (c - 1)

/-- Units consumed by a cursor state: full capacities of the books before
the cursor's book plus the position within it, minus one. -/
def consumedAt (meta : List Book) (b : Nat) (c : Int) : Int :=
  capsBefore meta b + c - 1

/-- The cursor advances of `generate_plan` for a list of day quotas, each
one `curr_chapter += day` followed by the normalizing `while` loop; this
is the state evolution between the day renderings of `generatePlanLoop`. -/
def advanceDays (meta : List Book) : List Int → Nat × Int × Book → Option (Nat × Int × Book)
  | [], s => some s
  | day :: rest, (b, c, book) =>
    match advanceLoop meta b (c + day) book with
    | none => none
    | some s' => advanceDays meta rest s'

/-- The two-book example used by the specification: capacities 5 and 3. -/
def exampleBooks : List Book := [⟨"Alpha", 5⟩, ⟨"Beta", 3⟩]

/-- The interleave block exactly as the specification words it (refinement
target for C6): `min(hi_count, lo_count) / g` pairs (base, base + 1) — a
small part immediately followed by a large part — then
`|hi_count - lo_count| / g` copies of the majority size. -/
def interleaveBlock (base hiC loC g : Nat) : List Nat :=
  (List.replicate (min hiC loC / g) [base, base + 1]).flatten ++
    List.replicate ((max hiC loC - min hiC loC) / g)
      (if loC < hiC then base + 1 else base)

theorem splitBlock_length (pp hi lo : Nat) :
    (splitBlock pp hi lo).length = lo + hi := by
  unfold splitBlock
  split <;> simp [List.length_flatten] <;> omega

theorem splitBlock_sum (pp hi lo : Nat) :
    (splitBlock pp hi lo).sum = (lo + hi) * pp + hi := by
  unfold splitBlock
  split
  · rename_i h
    obtain ⟨d, rfl⟩ : ∃ d, hi = lo + d := ⟨hi - lo, by omega⟩
    simp [List.sum_flatten, List.sum_replicate, smul_eq_mul,
      Nat.add_sub_cancel_left]
    ring
  · rename_i h
    obtain ⟨d, rfl⟩ : ∃ d, lo = hi + d := ⟨lo - hi, by omega⟩
    simp [List.sum_flatten, List.sum_replicate, smul_eq_mul,
      Nat.add_sub_cancel_left]
    ring

theorem splitBlock_mem (pp hi lo : Nat) :
    ∀ e ∈ splitBlock pp hi lo, e = pp ∨ e = pp + 1 := by
  intro e he
  unfold splitBlock at he
  split at he <;>
  · rcases List.mem_append.1 he with h | h
    · obtain ⟨l, hl, hel⟩ := List.mem_flatten.1 h
      have hleq := List.eq_of_mem_replicate hl
      subst hleq
      simp at hel
      tauto
    · have := List.eq_of_mem_replicate h
      tauto

theorem splitBlock_count (pp hi lo : Nat) :
    (splitBlock pp hi lo).count (pp + 1) = hi := by
  unfold splitBlock
  split <;>
    simp [List.count_append, List.count_flatten, List.count_replicate,
      List.sum_replicate, smul_eq_mul] <;>
    omega

theorem splitLoop_eq_flatten (pp hi lo n : Nat) (hL : 0 < lo + hi) :
    ∀ fuel i, n - i ≤ fuel → (lo + hi) ∣ (n - i) →
      splitLoop pp hi lo n i fuel =
        (List.replicate ((n - i) / (lo + hi)) (splitBlock pp hi lo)).flatten := by
  intro fuel
  induction fuel with
  | zero =>
    intro i hk _
    have h0 : n - i = 0 := by omega
    simp [splitLoop, h0]
  | succ k ih =>
    intro i hk hdvd
    rw [splitLoop]
    by_cases hin : i < n
    · simp only [hin, if_true]
      rcases hdvd with ⟨c, hc⟩
      rcases c with _ | c
      · rw [Nat.mul_zero] at hc
        omega
      · rw [Nat.mul_succ] at hc
        have hge : lo + hi ≤ n - i := by omega
        have hdvd' : (lo + hi) ∣ (n - (i + (lo + hi))) := ⟨c, by omega⟩
        have hrec := ih (i + (lo + hi)) (by omega) hdvd'
        rw [hrec]
        have hq : (n - i) / (lo + hi) = (n - (i + (lo + hi))) / (lo + hi) + 1 := by
          have hsplit : n - i = (n - (i + (lo + hi))) + (lo + hi) := by omega
          rw [hsplit, Nat.add_div_right _ hL]
        rw [hq, List.replicate_succ, List.flatten_cons]
    · simp only [hin, if_false]
      have h0 : n - i = 0 := by omega
      simp [h0]

/-- Characterization of `split` when the remainder is non-zero: the result
is `gcd` many copies of one interleave block. -/
theorem split_of_rem (x n : Nat) (hn : 0 < n) (hxn : n ≤ x) (hrem : x % n ≠ 0) :
    split x n = some ((List.replicate (Nat.gcd (x % n) (n - x % n))
      (splitBlock (x / n) ((x % n) / Nat.gcd (x % n) (n - x % n))
        ((n - x % n) / Nat.gcd (x % n) (n - x % n)))).flatten) := by
  have hrn : x % n < n := Nat.mod_lt x hn
  have hhigh : n - (n - x % n) = x % n := by omega
  unfold split
  rw [if_neg (by omega), if_neg hrem]
  simp only [hhigh]
  have hcd : (if x % n > n - x % n then Nat.gcd (x % n) (n - x % n)
      else Nat.gcd (n - x % n) (x % n)) = Nat.gcd (x % n) (n - x % n) := by
    split
    · rfl
    · exact Nat.gcd_comm _ _
  rw [hcd]
  set r := x % n with hr
  set zp := n - r with hzp
  set cd := Nat.gcd r zp with hcddef
  have hrpos : 0 < r := Nat.pos_of_ne_zero hrem
  have hzppos : 0 < zp := by omega
  have hcdpos : 0 < cd := Nat.gcd_pos_of_pos_left zp hrpos
  have hdr : cd ∣ r := Nat.gcd_dvd_left r zp
  have hdzp : cd ∣ zp := Nat.gcd_dvd_right r zp
  have hL : (zp / cd) + (r / cd) = n / cd := by
    rw [← Nat.add_div_of_dvd_right hdzp]
    congr 1
    omega
  have hn_eq : n = ((zp / cd) + (r / cd)) * cd := by
    rw [hL]
    exact (Nat.div_mul_cancel (by
      have h1 : cd ∣ r + zp := Nat.dvd_add hdr hdzp
      have h2 : r + zp = n := by omega
      rwa [h2] at h1)).symm
  have hLpos : 0 < (zp / cd) + (r / cd) := by
    have h1 : 0 < r / cd := Nat.div_pos (Nat.le_of_dvd hrpos hdr) hcdpos
    exact Nat.lt_of_lt_of_le h1 (Nat.le_add_left _ _)
  congr 1
  rw [splitLoop_eq_flatten _ _ _ _ hLpos n 0 (by omega) (by
    rw [Nat.sub_zero]
    exact ⟨cd, hn_eq⟩)]
  congr 2
  rw [Nat.sub_zero]
  conv_lhs => rw [hn_eq]
  exact Nat.mul_div_cancel_left cd hLpos

theorem split_of_dvd (x n : Nat) (hn : 0 < n) (hxn : n ≤ x) (hrem : x % n = 0) :
    split x n = some (List.replicate n (x / n)) := by
  unfold split
  rw [if_neg (by omega), if_pos hrem]

theorem split_gcd_facts (x n : Nat) (hn : 0 < n) (hrem : x % n ≠ 0) :
    0 < Nat.gcd (x % n) (n - x % n) ∧
    Nat.gcd (x % n) (n - x % n) * ((x % n) / Nat.gcd (x % n) (n - x % n)) = x % n ∧
    Nat.gcd (x % n) (n - x % n) * ((n - x % n) / Nat.gcd (x % n) (n - x % n)) = n - x % n ∧
    1 ≤ (x % n) / Nat.gcd (x % n) (n - x % n) ∧
    1 ≤ (n - x % n) / Nat.gcd (x % n) (n - x % n) := by
  have hrn : x % n < n := Nat.mod_lt x hn
  have hrpos : 0 < x % n := Nat.pos_of_ne_zero hrem
  have hzppos : 0 < n - x % n := by omega
  have hcdpos : 0 < Nat.gcd (x % n) (n - x % n) :=
    Nat.gcd_pos_of_pos_left _ hrpos
  have hdr : Nat.gcd (x % n) (n - x % n) ∣ x % n := Nat.gcd_dvd_left _ _
  have hdzp : Nat.gcd (x % n) (n - x % n) ∣ (n - x % n) := Nat.gcd_dvd_right _ _
  exact ⟨hcdpos, Nat.mul_div_cancel' hdr, Nat.mul_div_cancel' hdzp,
    Nat.div_pos (Nat.le_of_dvd hrpos hdr) hcdpos,
    Nat.div_pos (Nat.le_of_dvd hzppos hdzp) hcdpos⟩

theorem sum_flatten_replicate (m : Nat) (B : List Nat) :
    ((List.replicate m B).flatten).sum = m * B.sum := by
  rw [List.sum_flatten, List.map_replicate, List.sum_replicate, smul_eq_mul]

theorem length_flatten_replicate {α : Type} (m : Nat) (B : List α) :
    ((List.replicate m B).flatten).length = m * B.length := by
  rw [List.length_flatten, List.map_replicate, List.sum_replicate, smul_eq_mul]

theorem count_flatten_replicate (m a : Nat) (B : List Nat) :
    ((List.replicate m B).flatten).count a = m * B.count a := by
  rw [List.count_flatten, List.map_replicate, List.sum_replicate, smul_eq_mul]

theorem mem_flatten_replicate {α : Type} (m : Nat) (B : List α) (e : α)
    (h : e ∈ (List.replicate m B).flatten) : e ∈ B := by
  obtain ⟨l, hl, hel⟩ := List.mem_flatten.1 h
  rwa [List.eq_of_mem_replicate hl] at hel

/-- C1: for every `total ≥ parts ≥ 1`, `split total parts` succeeds and the
returned parts sum to exactly `total`. -/
theorem split_conservation (x n : Nat) (hn : 1 ≤ n) (hxn : n ≤ x) :
    ∃ l, split x n = some l ∧ l.sum = x := by
  by_cases hrem : x % n = 0
  · refine ⟨_, split_of_dvd x n hn hxn hrem, ?_⟩
    rw [List.sum_replicate, smul_eq_mul]
    exact Nat.mul_div_cancel' (Nat.dvd_of_mod_eq_zero hrem)
  · refine ⟨_, split_of_rem x n hn hxn hrem, ?_⟩
    obtain ⟨hcdpos, hmulhi, hmullo, hhi1, hlo1⟩ := split_gcd_facts x n hn hrem
    rw [sum_flatten_replicate, splitBlock_sum]
    set g := Nat.gcd (x % n) (n - x % n) with hg
    set a := (x % n) / g with ha
    set b := (n - x % n) / g with hb
    have hexp : g * ((b + a) * (x / n) + a) = (g * b + g * a) * (x / n) + g * a := by
      ring
    rw [hexp, hmullo, hmulhi]
    have hrn : x % n < n := Nat.mod_lt x hn
    have hzr : (n - x % n) + x % n = n := by omega
    rw [hzr]
    exact Nat.div_add_mod x n

/-- C1 witness: conservation at the concrete input total = 7, parts = 3. -/
theorem split_conservation_witness :
    (1 ≤ 3 ∧ 3 ≤ 7) ∧ ∃ l, split 7 3 = some l ∧ l.sum = 7 :=
  ⟨by decide, split_conservation 7 3 (by decide) (by decide)⟩

/-- C2: for every `total ≥ parts ≥ 1`, `split total parts` returns exactly
`parts` elements, each `total / parts` or `total / parts + 1`; the number of
elements equal to `total / parts + 1` is exactly `total % parts`, and every
element is positive. -/
theorem split_bounds (x n : Nat) (hn : 1 ≤ n) (hxn : n ≤ x) :
    ∃ l, split x n = some l ∧ l.length = n ∧
      (∀ e ∈ l, e = x / n ∨ e = x / n + 1) ∧
      l.count (x / n + 1) = x % n ∧
      (∀ e ∈ l, 0 < e) := by
  have hpp : 1 ≤ x / n := (Nat.one_le_div_iff hn).2 hxn
  by_cases hrem : x % n = 0
  · refine ⟨_, split_of_dvd x n hn hxn hrem, by simp, ?_, ?_, ?_⟩
    · intro e he
      exact Or.inl (List.eq_of_mem_replicate he)
    · rw [List.count_replicate, hrem]
      have hne : ¬ ((x / n : Nat) == x / n + 1) = true := by simp
      rw [if_neg hne]
    · intro e he
      rw [List.eq_of_mem_replicate he]
      exact hpp
  · obtain ⟨hcdpos, hmulhi, hmullo, hhi1, hlo1⟩ := split_gcd_facts x n hn hrem
    refine ⟨_, split_of_rem x n hn hxn hrem, ?_, ?_, ?_, ?_⟩
    · rw [length_flatten_replicate, splitBlock_length]
      have hexp : Nat.gcd (x % n) (n - x % n) *
          ((n - x % n) / Nat.gcd (x % n) (n - x % n) +
            (x % n) / Nat.gcd (x % n) (n - x % n)) =
          Nat.gcd (x % n) (n - x % n) * ((n - x % n) / Nat.gcd (x % n) (n - x % n)) +
          Nat.gcd (x % n) (n - x % n) * ((x % n) / Nat.gcd (x % n) (n - x % n)) := by
        ring
      rw [hexp, hmullo, hmulhi]
      have hrn : x % n < n := Nat.mod_lt x hn
      omega
    · intro e he
      exact splitBlock_mem _ _ _ e (mem_flatten_replicate _ _ _ he)
    · rw [count_flatten_replicate, splitBlock_count]
      exact hmulhi
    · intro e he
      rcases splitBlock_mem _ _ _ e (mem_flatten_replicate _ _ _ he) with h | h <;>
        omega

/-- C2 witness: bounds and length at the concrete input total = 7, parts = 3. -/
theorem split_bounds_witness :
    (1 ≤ 3 ∧ 3 ≤ 7) ∧ ∃ l, split 7 3 = some l ∧ l.length = 3 ∧
      (∀ e ∈ l, e = 7 / 3 ∨ e = 7 / 3 + 1) ∧
      l.count (7 / 3 + 1) = 7 % 3 ∧ (∀ e ∈ l, 0 < e) :=
  ⟨by decide, split_bounds 7 3 (by decide) (by decide)⟩

theorem capsBefore_succ (meta : List Book) (b : Nat) (book : Book)
    (hb : meta[b]? = some book) :
    capsBefore meta (b + 1) = capsBefore meta b + book.chapters := by
  unfold capsBefore
  rw [List.take_succ, hb]
  simp

theorem capsBefore_length (meta : List Book) :
    capsBefore meta meta.length = totalCaps meta := by
  unfold capsBefore totalCaps
  rw [List.take_length]

theorem capsBefore_add_dropSum (meta : List Book) (b : Nat) :
    capsBefore meta b + ((meta.drop b).map (fun bk => bk.chapters)).sum =
      totalCaps meta := by
  unfold capsBefore totalCaps
  rw [List.map_take, List.map_drop]
  exact List.sum_take_add_sum_drop _ b

theorem availCaps_drop (meta : List Book) (b : Nat) (c : Int) :
    availCaps (meta.drop b) c = totalCaps meta - consumedAt meta b c := by
  have h := capsBefore_add_dropSum meta b
  unfold availCaps consumedAt
  omega

/-- For a successful run of the cursor-advance loop started in sync with
`meta` (the held book is `meta[b]` and the suffix is `meta[b+1:]`), the
exit state is in sync, the book index does not decrease, the exit position
lies in `[1, chapters]`, and the consumed-units count is unchanged. -/
theorem advanceLoopAux_spec (meta : List Book) :
    ∀ (rest : List Book) (book : Book) (b : Nat) (c : Int) (b' : Nat)
      (c' : Int) (book' : Book),
      meta[b]? = some book → rest = meta.drop (b + 1) → 1 ≤ c →
      advanceLoopAux book rest b c = some (b', c', book') →
      meta[b']? = some book' ∧ b ≤ b' ∧ 1 ≤ c' ∧ c' ≤ book'.chapters ∧
      consumedAt meta b' c' = consumedAt meta b c := by
  intro rest
  induction rest with
  | nil =>
    intro book b c b' c' book' hb hrest hc h
    unfold advanceLoopAux at h
    split at h
    · exact absurd h (by simp)
    · rename_i hcond
      have hb' : b' = b ∧ c' = c ∧ book' = book := by
        simpa using h.symm
      obtain ⟨rfl, rfl, rfl⟩ := hb'
      exact ⟨hb, le_rfl, hc, by omega, rfl⟩
  | cons next rest' ih =>
    intro book b c b' c' book' hb hrest hc h
    unfold advanceLoopAux at h
    split at h
    · rename_i hcond
      have hb1 : meta[b + 1]? = some next := by
        have h0 : (meta.drop (b + 1))[0]? = some next := by
          rw [← hrest]
          simp
        rwa [List.getElem?_drop, Nat.add_zero] at h0
      have hrest' : rest' = meta.drop (b + 1 + 1) := by
        calc rest' = List.drop 1 (next :: rest') := rfl
          _ = List.drop 1 (meta.drop (b + 1)) := by rw [← hrest]
          _ = meta.drop (b + 1 + 1) := by rw [List.drop_drop]
      have hc1 : 1 ≤ c - book.chapters := by omega
      obtain ⟨h1, h2, h3, h4, h5⟩ :=
        ih next (b + 1) (c - book.chapters) b' c' book' hb1 hrest' hc1 h
      refine ⟨h1, by omega, h3, h4, ?_⟩
      rw [h5]
      unfold consumedAt
      rw [capsBefore_succ meta b book hb]
      ring
    · rename_i hcond
      have hb' : b' = b ∧ c' = c ∧ book' = book := by
        simpa using h.symm
      obtain ⟨rfl, rfl, rfl⟩ := hb'
      exact ⟨hb, le_rfl, hc, by omega, rfl⟩

/-- The cursor-advance loop succeeds (no IndexError) whenever the units
consumed at the pre-advance cursor are strictly below the total capacity. -/
theorem advanceLoopAux_isSome (meta : List Book) :
    ∀ (rest : List Book) (book : Book) (b : Nat) (c : Int),
      meta[b]? = some book → rest = meta.drop (b + 1) →
      consumedAt meta b c < totalCaps meta →
      ∃ r, advanceLoopAux book rest b c = some r := by
  intro rest
  induction rest with
  | nil =>
    intro book b c hb hrest hlt
    unfold advanceLoopAux
    split
    · rename_i hcond
      exfalso
      have hblen : b < meta.length := by
        rw [List.getElem?_eq_some_iff] at hb
        exact hb.1
      have hlen : meta.length ≤ b + 1 := by
        have h0 := congrArg List.length hrest
        simp [List.length_drop] at h0
        omega
      have hlen' : meta.length = b + 1 := by omega
      have hcb : capsBefore meta (b + 1) = totalCaps meta := by
        rw [← hlen']
        exact capsBefore_length meta
      have hcs := capsBefore_succ meta b book hb
      unfold consumedAt at hlt
      omega
    · exact ⟨_, rfl⟩
  | cons next rest' ih =>
    intro book b c hb hrest hlt
    unfold advanceLoopAux
    split
    · rename_i hcond
      have hb1 : meta[b + 1]? = some next := by
        have h0 : (meta.drop (b + 1))[0]? = some next := by
          rw [← hrest]
          simp
        rwa [List.getElem?_drop, Nat.add_zero] at h0
      have hrest' : rest' = meta.drop (b + 1 + 1) := by
        calc rest' = List.drop 1 (next :: rest') := rfl
          _ = List.drop 1 (meta.drop (b + 1)) := by rw [← hrest]
          _ = meta.drop (b + 1 + 1) := by rw [List.drop_drop]
      apply ih next (b + 1) (c - book.chapters) hb1 hrest'
      have hcs := capsBefore_succ meta b book hb
      unfold consumedAt at hlt ⊢
      omega
    · exact ⟨_, rfl⟩

/-- The describe recursion succeeds whenever the requested day quota fits
in the capacity available from the cursor position onward. -/
theorem getDayReadingTextAux_isSome :
    ∀ (books : List Book) (c day : Int), 1 ≤ c → 1 ≤ day →
      day ≤ availCaps books c →
      ∃ s, getDayReadingTextAux books c day = some s := by
  intro books
  induction books with
  | nil =>
    intro c day hc hd hcap
    exfalso
    unfold availCaps at hcap
    simp at hcap
    omega
  | cons book rest ih =>
    intro c day hc hd hcap
    by_cases hterm : c + day - 1 ≤ book.chapters
    · exact ⟨book.name ++ " " ++
        (if day ≠ 1 then toString c ++ "-" ++ toString (c + day - 1)
         else toString c), by
        unfold getDayReadingTextAux
        rw [if_pos hterm]⟩
    · have hcap' : day - (book.chapters - c) - 1 ≤ availCaps rest 1 := by
        unfold availCaps at hcap ⊢
        simp only [List.map_cons, List.sum_cons] at hcap
        omega
      obtain ⟨s, hs⟩ := ih 1 (day - (book.chapters - c) - 1) le_rfl (by omega) hcap'
      exact ⟨(book.name ++ " " ++
        (if c ≠ book.chapters then toString c ++ "-" ++ toString book.chapters ++ "; "
         else toString c ++ "; ")) ++ s, by
        unfold getDayReadingTextAux
        rw [if_neg hterm, hs]
        rfl⟩

/-- The day loop of `generate_plan` succeeds whenever the cursor starts in
sync and the consumed units plus all remaining quotas fit in the total
capacity. -/
theorem generatePlanLoop_isSome (meta : List Book) :
    ∀ (quotas : List Int) (b : Nat) (c : Int) (book : Book) (date : Int),
      meta[b]? = some book → 1 ≤ c →
      (∀ q ∈ quotas, 0 < q) →
      consumedAt meta b c + quotas.sum ≤ totalCaps meta →
      ∃ r, generatePlanLoop meta quotas b c book date = some r := by
  intro quotas
  induction quotas with
  | nil =>
    intro b c book date _ _ _ _
    exact ⟨_, rfl⟩
  | cons day rest ih =>
    intro b c book date hb hc hqpos hsum
    have hday : 0 < day := hqpos day (List.mem_cons_self _ _)
    have hrest_nonneg : 0 ≤ rest.sum :=
      List.sum_nonneg (fun q hq => le_of_lt (hqpos q (List.mem_cons_of_mem _ hq)))
    have hsum2 : (day :: rest).sum = day + rest.sum := by simp
    obtain ⟨text, htext⟩ : ∃ s, getDayReadingText meta b c day = some s := by
      apply getDayReadingTextAux_isSome (meta.drop b) c day hc (by omega)
      rw [availCaps_drop]
      omega
    cases rest with
    | nil =>
      exact ⟨_, by unfold generatePlanLoop getDayReadingText at *; rw [htext]⟩
    | cons q2 rest2 =>
      have hq2 : 0 < q2 := hqpos q2 (by simp)
      have hr2 : 0 ≤ rest2.sum :=
        List.sum_nonneg (fun q hq => le_of_lt (hqpos q (by simp [hq])))
      have hs3 : (day :: q2 :: rest2).sum = day + (q2 :: rest2).sum := by
        rw [List.sum_cons]
      have hs4 : (q2 :: rest2).sum = q2 + rest2.sum := by
        rw [List.sum_cons]
      have hlt : consumedAt meta b (c + day) < totalCaps meta := by
        unfold consumedAt at hsum ⊢
        omega
      obtain ⟨⟨b', c', book'⟩, hadv⟩ :=
        advanceLoopAux_isSome meta (meta.drop (b + 1)) book b (c + day) hb rfl hlt
      obtain ⟨hb', hble, hc1', hc2', hcons⟩ :=
        advanceLoopAux_spec meta (meta.drop (b + 1)) book b (c + day) b' c' book'
          hb rfl (by omega) hadv
      obtain ⟨⟨rows, bf, cf⟩, hr⟩ := ih b' c' book' (date + 1) hb' hc1'
        (fun q hq => hqpos q (List.mem_cons_of_mem _ hq))
        (by
          rw [hcons]
          unfold consumedAt at hsum ⊢
          omega)
      refine ⟨((date, text) :: rows, bf, cf), ?_⟩
      unfold generatePlanLoop advanceLoop
      simp only [htext, hadv, hr]

/-- C3: rendering the containers [("Alpha", 5), ("Beta", 3)] against the
quota sequence [4, 2, 2] produces exactly the three day texts
"Alpha 1-4", "Alpha 5; Beta 1", "Beta 2-3" on consecutive dates; the final
cursor stands at book index 1, position 2, and the last day's reading ends
at global unit 8, the total capacity consumed. -/
theorem render_example :
    generatePlanLoop exampleBooks [4, 2, 2] 0 1 ⟨"Alpha", 5⟩ 0 =
      some ([(0, "Alpha 1-4"), (1, "Alpha 5; Beta 1"), (2, "Beta 2-3")], 1, 2) ∧
    consumedAt exampleBooks 1 2 + 2 = 8 := by
  constructor
  · decide
  · decide

/-- C4: for a non-empty book list with positive capacities and a non-empty
list of positive day quotas whose sum is at most the total capacity, the
rendering loop never indexes the book list out of bounds (every lookup,
modelled as `Option`, succeeds). -/
theorem render_in_bounds (meta : List Book) (quotas : List Int) (start : Int)
    (book0 : Book) (hm : meta[0]? = some book0)
    (hcaps : ∀ bk ∈ meta, 0 < bk.chapters)
    (hq : quotas ≠ []) (hqpos : ∀ q ∈ quotas, 0 < q)
    (hsum : quotas.sum ≤ totalCaps meta) :
    ∃ r, generatePlanLoop meta quotas 0 1 book0 start = some r := by
  apply generatePlanLoop_isSome meta quotas 0 1 book0 start hm le_rfl hqpos
  have h0 : consumedAt meta 0 1 = 0 := by
    unfold consumedAt capsBefore
    simp
  omega

/-- C4 witness: in-bounds rendering at the concrete books/quotas example. -/
theorem render_in_bounds_witness :
    (exampleBooks[0]? = some ⟨"Alpha", 5⟩ ∧
      (∀ bk ∈ exampleBooks, 0 < bk.chapters) ∧
      ([4, 2, 2] : List Int) ≠ [] ∧
      (∀ q ∈ ([4, 2, 2] : List Int), 0 < q) ∧
      ([4, 2, 2] : List Int).sum ≤ totalCaps exampleBooks) ∧
    ∃ r, generatePlanLoop exampleBooks [4, 2, 2] 0 1 ⟨"Alpha", 5⟩ 0 = some r :=
  ⟨by decide, render_in_bounds exampleBooks [4, 2, 2] 0 ⟨"Alpha", 5⟩
    (by decide) (by decide) (by decide) (by decide) (by decide)⟩

/-- C7: when a day's reading ends exactly at the current book's last unit
(`c + day - 1 = chapters`), the describe algorithm takes its terminal
branch: no rollover or recursion occurs, the text is the single segment
for the current book, and the segment list is a singleton. -/
theorem describe_exact_boundary (meta : List Book) (b : Nat) (c day : Int)
    (h : b < meta.length) (hbound : c + day - 1 = (meta[b]).chapters) :
    getDayReadingText meta b c day =
      some ((meta[b]).name ++ " " ++
        (if day ≠ 1 then toString c ++ "-" ++ toString (c + day - 1)
         else toString c)) ∧
    getDayReadingSegs meta b c day =
      some [(meta[b]).name ++ " " ++
        (if day ≠ 1 then toString c ++ "-" ++ toString (c + day - 1)
         else toString c)] := by
  have hdrop : meta.drop b = meta[b] :: meta.drop (b + 1) :=
    List.drop_eq_getElem_cons h
  constructor
  · unfold getDayReadingText
    rw [hdrop]
    unfold getDayReadingTextAux
    rw [if_pos (le_of_eq hbound)]
  · unfold getDayReadingSegs
    rw [hdrop]
    unfold getDayReadingSegsAux
    rw [if_pos (le_of_eq hbound)]

/-- C7 witness: boundary day at position 2 with quota 4 in the capacity-5
book "Alpha" (2 + 4 - 1 = 5). -/
theorem describe_exact_boundary_witness :
    (0 < exampleBooks.length ∧ (2 : Int) + 4 - 1 = (exampleBooks[0]).chapters) ∧
    getDayReadingText exampleBooks 0 2 4 = some "Alpha 2-5" := by
  refine ⟨by decide, ?_⟩
  have h := describe_exact_boundary exampleBooks 0 2 4 (by decide) (by decide)
  rw [h.1]
  rfl

theorem getDayReadingSegsAux_ne_nil :
    ∀ (books : List Book) (c day : Int) (ts : List String),
      getDayReadingSegsAux books c day = some ts → ts ≠ [] := by
  intro books
  induction books with
  | nil =>
    intro c day ts h
    exact absurd h (by simp [getDayReadingSegsAux])
  | cons book rest ih =>
    intro c day ts h
    unfold getDayReadingSegsAux at h
    split at h
    · injection h with h2
      rw [← h2]
      simp
    · cases hrec : getDayReadingSegsAux rest 1 (day - (book.chapters - c) - 1) with
      | none =>
        rw [hrec] at h
        exact absurd h (by simp)
      | some ts' =>
        rw [hrec] at h
        injection h with h2
        rw [← h2]
        simp

theorem getDayReadingTextAux_eq_joinSegs :
    ∀ (books : List Book) (c day : Int),
      getDayReadingTextAux books c day =
        (getDayReadingSegsAux books c day).map joinSegs := by
  intro books
  induction books with
  | nil => intro c day; rfl
  | cons book rest ih =>
    intro c day
    unfold getDayReadingTextAux getDayReadingSegsAux
    by_cases hterm : c + day - 1 ≤ book.chapters
    · rw [if_pos hterm, if_pos hterm]
      rfl
    · rw [if_neg hterm, if_neg hterm, ih]
      cases hrec : getDayReadingSegsAux rest 1 (day - (book.chapters - c) - 1) with
      | none => rfl
      | some ts' =>
        have hne := getDayReadingSegsAux_ne_nil rest 1 _ ts' hrec
        cases ts' with
        | nil => exact absurd rfl hne
        | cons t ts2 =>
          simp only [Option.map_some', Option.map_map, Function.comp]
          congr 1
          have hjoin : joinSegs ((book.name ++ " " ++
              (if c ≠ book.chapters then
                toString c ++ "-" ++ toString book.chapters
               else toString c)) :: t :: ts2) =
              (book.name ++ " " ++
              (if c ≠ book.chapters then
                toString c ++ "-" ++ toString book.chapters
               else toString c)) ++ "; " ++ joinSegs (t :: ts2) := rfl
          rw [hjoin]
          by_cases hcc : c ≠ book.chapters
          · rw [if_pos hcc, if_pos hcc]
            simp [String.append_assoc]
          · rw [if_neg hcc, if_neg hcc]
            simp [String.append_assoc]

/-- The segment recursion succeeds under the same capacity bound as the
text recursion, the segment count is at least one, and it is exactly the
minimal number of books (from the cursor's book onward) whose combined
remaining capacity covers the day's quota. -/
theorem getDayReadingSegsAux_facts :
    ∀ (books : List Book) (c day : Int), 1 ≤ c → 1 ≤ day →
      day ≤ availCaps books c →
      ∃ segs, getDayReadingSegsAux books c day = some segs ∧
        1 ≤ segs.length ∧
        day ≤ availCaps (books.take segs.length) c ∧
        (2 ≤ segs.length → availCaps (books.take (segs.length - 1)) c < day) := by
  intro books
  induction books with
  | nil =>
    intro c day hc hd hcap
    exfalso
    unfold availCaps at hcap
    simp at hcap
    omega
  | cons book rest ih =>
    intro c day hc hd hcap
    by_cases hterm : c + day - 1 ≤ book.chapters
    · refine ⟨[book.name ++ " " ++
        (if day ≠ 1 then toString c ++ "-" ++ toString (c + day - 1)
         else toString c)], ?_, by simp, ?_, ?_⟩
      · unfold getDayReadingSegsAux
        rw [if_pos hterm]
      · unfold availCaps
        simp
        omega
      · intro h2
        simp at h2
    · have hcap' : day - (book.chapters - c) - 1 ≤ availCaps rest 1 := by
        unfold availCaps at hcap ⊢
        simp only [List.map_cons, List.sum_cons] at hcap
        omega
      obtain ⟨segs', hsegs', hlen', hspan', hmin'⟩ :=
        ih 1 (day - (book.chapters - c) - 1) le_rfl (by omega) hcap'
      refine ⟨(book.name ++ " " ++
        (if c ≠ book.chapters then toString c ++ "-" ++ toString book.chapters
         else toString c)) :: segs', ?_, by simp, ?_, ?_⟩
      · unfold getDayReadingSegsAux
        rw [if_neg hterm, hsegs']
        rfl
      · simp only [List.length_cons, List.take_succ_cons]
        unfold availCaps at hspan' ⊢
        simp only [List.map_cons, List.sum_cons]
        omega
      · intro h2
        obtain ⟨m, hm⟩ : ∃ m, segs'.length = m + 1 := ⟨segs'.length - 1, by omega⟩
        simp only [List.length_cons, hm, Nat.add_sub_cancel, List.take_succ_cons]
        rcases Nat.eq_zero_or_pos m with hm0 | hmpos
        · rw [hm0]
          unfold availCaps
          simp
          omega
        · have hmin2 := hmin' (by omega)
          rw [hm, Nat.add_sub_cancel] at hmin2
          unfold availCaps at hmin2 ⊢
          simp only [List.map_cons, List.sum_cons]
          omega

/-- C8: with the cursor position inside the current book and a positive
quota that fits in the capacity remaining from the cursor onward, the
describe recursion succeeds (terminates without IndexError); its segment
count is exactly the number of books the quota spans (minimal book count
whose remaining capacity covers the quota), so the recursion depth is the
span count minus one; and the `remaining` argument strictly decreases at
the rollover recursion step. -/
theorem describe_termination (meta : List Book) (b : Nat) (c day : Int)
    (hb : b < meta.length) (hc1 : 1 ≤ c) (hc2 : c ≤ (meta[b]).chapters)
    (hd : 1 ≤ day) (hcap : day ≤ availCaps (meta.drop b) c) :
    ∃ segs, getDayReadingSegs meta b c day = some segs ∧
      getDayReadingText meta b c day = some (joinSegs segs) ∧
      1 ≤ segs.length ∧
      day ≤ availCaps ((meta.drop b).take segs.length) c ∧
      (2 ≤ segs.length → availCaps ((meta.drop b).take (segs.length - 1)) c < day) ∧
      ((meta[b]).chapters < c + day - 1 →
        day - ((meta[b]).chapters - c) - 1 < day) := by
  obtain ⟨segs, hsegs, hlen, hspan, hmin⟩ :=
    getDayReadingSegsAux_facts (meta.drop b) c day hc1 hd hcap
  refine ⟨segs, hsegs, ?_, hlen, hspan, hmin, ?_⟩
  · unfold getDayReadingText
    rw [getDayReadingTextAux_eq_joinSegs, hsegs]
    rfl
  · intro hroll
    omega

/-- C8 witness: a day of quota 5 starting at position 2 of "Alpha" spans
both example books; the segment recursion succeeds. -/
theorem describe_termination_witness :
    (0 < exampleBooks.length ∧ (1 : Int) ≤ 2 ∧
      (2 : Int) ≤ (exampleBooks[0]).chapters ∧ (1 : Int) ≤ 5 ∧
      (5 : Int) ≤ availCaps (exampleBooks.drop 0) 2) ∧
    ∃ segs, getDayReadingSegs exampleBooks 0 2 5 = some segs ∧
      getDayReadingText exampleBooks 0 2 5 = some (joinSegs segs) ∧
      1 ≤ segs.length ∧
      (5 : Int) ≤ availCaps ((exampleBooks.drop 0).take segs.length) 2 ∧
      (2 ≤ segs.length →
        availCaps ((exampleBooks.drop 0).take (segs.length - 1)) 2 < 5) ∧
      ((exampleBooks[0]).chapters < 2 + 5 - 1 →
        (5 : Int) - ((exampleBooks[0]).chapters - 2) - 1 < 5) :=
  ⟨by decide, describe_termination exampleBooks 0 2 5 (by decide) (by decide)
    (by decide) (by decide) (by decide)⟩

theorem generatePlanLoop_nil_eq (meta : List Book) (b : Nat) (c : Int)
    (book : Book) (date : Int) :
    generatePlanLoop meta [] b c book date = some ([], b, c) := rfl

theorem generatePlanLoop_last_eq (meta : List Book) (day : Int) (b : Nat)
    (c : Int) (book : Book) (date : Int) :
    generatePlanLoop meta [day] b c book date =
      match getDayReadingText meta b c day with
      | none => none
      | some text => some ([(date, text)], b, c) := rfl

theorem generatePlanLoop_cons_eq (meta : List Book) (day q2 : Int)
    (rest2 : List Int) (b : Nat) (c : Int) (book : Book) (date : Int) :
    generatePlanLoop meta (day :: q2 :: rest2) b c book date =
      match getDayReadingText meta b c day with
      | none => none
      | some text =>
        match advanceLoop meta b (c + day) book with
        | none => none
        | some (b', c', book') =>
          match generatePlanLoop meta (q2 :: rest2) b' c' book' (date + 1) with
          | none => none
          | some (rows, bf, cf) => some ((date, text) :: rows, bf, cf) := rfl

/-- C9 (amended): `generate_plan` has no calendar flag; on every day except
the last the date is always advanced by exactly one calendar day, so the
rendered rows carry the consecutive dates `start, start + 1, ...`. -/
theorem render_dates_consecutive (meta : List Book) :
    ∀ (quotas : List Int) (b : Nat) (c : Int) (book : Book) (date : Int)
      (rows : List (Int × String)) (bf : Nat) (cf : Int),
      generatePlanLoop meta quotas b c book date = some (rows, bf, cf) →
      rows.map Prod.fst = (List.range quotas.length).map
        (fun (k : Nat) => date + (k : Int)) := by
  intro quotas
  induction quotas with
  | nil =>
    intro b c book date rows bf cf h
    rw [generatePlanLoop_nil_eq] at h
    simp only [Option.some.injEq, Prod.mk.injEq] at h
    rw [← h.1]
    simp
  | cons day rest ih =>
    intro b c book date rows bf cf h
    cases rest with
    | nil =>
      rw [generatePlanLoop_last_eq] at h
      split at h
      · exact absurd h (by simp)
      · simp only [Option.some.injEq, Prod.mk.injEq] at h
        rw [← h.1]
        simp [List.range_succ]
    | cons q2 rest2 =>
      rw [generatePlanLoop_cons_eq] at h
      split at h
      · exact absurd h (by simp)
      · split at h
        · exact absurd h (by simp)
        · split at h
          · exact absurd h (by simp)
          · rename_i rows' bf' cf' hrec
            simp only [Option.some.injEq, Prod.mk.injEq] at h
            have hih := ih _ _ _ _ rows' bf' cf' hrec
            rw [← h.1]
            simp only [List.map_cons, List.length_cons]
            rw [List.range_succ_eq_map]
            simp only [List.map_cons, List.map_map]
            congr 1
            · simp
            · rw [hih]
              apply List.map_congr_left
              intro a _
              simp only [Function.comp_apply]
              push_cast
              ring

/-- C9 counterexample: `generate_plan` accepts no `advance_calendar`
parameter; at the concrete example input its rendering advances the date on
every non-final day unconditionally — days 1 and 2 carry the distinct dates
0 and 1, so no mode of the code leaves the current date unchanged. -/
theorem advance_calendar_cex :
    generatePlanLoop exampleBooks [4, 2, 2] 0 1 ⟨"Alpha", 5⟩ 0 =
      some ([(0, "Alpha 1-4"), (1, "Alpha 5; Beta 1"), (2, "Beta 2-3")], 1, 2) ∧
    ([(0, "Alpha 1-4"), (1, "Alpha 5; Beta 1"), (2, "Beta 2-3")]
      : List (Int × String)).map Prod.fst = [0, 1, 2] ∧
    ¬ ((0 : Int) = 1) := by
  refine ⟨by decide, by decide, by decide⟩

/-- C9 witness: consecutive dates at the concrete example input. -/
theorem render_dates_consecutive_witness :
    generatePlanLoop exampleBooks [4, 2, 2] 0 1 ⟨"Alpha", 5⟩ 0 =
      some ([(0, "Alpha 1-4"), (1, "Alpha 5; Beta 1"), (2, "Beta 2-3")], 1, 2) ∧
    ([(0, "Alpha 1-4"), (1, "Alpha 5; Beta 1"), (2, "Beta 2-3")]
      : List (Int × String)).map Prod.fst =
      (List.range ([4, 2, 2] : List Int).length).map
        (fun (k : Nat) => (0 : Int) + (k : Int)) :=
  ⟨by decide, render_dates_consecutive exampleBooks [4, 2, 2] 0 1 ⟨"Alpha", 5⟩ 0
    [(0, "Alpha 1-4"), (1, "Alpha 5; Beta 1"), (2, "Beta 2-3")] 1 2 (by decide)⟩

theorem advanceDays_nil_eq (meta : List Book) (s : Nat × Int × Book) :
    advanceDays meta [] s = some s := rfl

theorem advanceDays_cons_eq (meta : List Book) (day : Int) (rest : List Int)
    (b : Nat) (c : Int) (book : Book) :
    advanceDays meta (day :: rest) (b, c, book) =
      match advanceLoop meta b (c + day) book with
      | none => none
      | some s' => advanceDays meta rest s' := rfl

/-- For a successful sequence of day advances started in sync, the exit
state is in sync, the book index never decreases, and the consumed-units
count grows by exactly the sum of the consumed quotas. -/
theorem advanceDays_spec (meta : List Book) :
    ∀ (qs : List Int) (b : Nat) (c : Int) (book : Book) (b' : Nat) (c' : Int)
      (book' : Book),
      meta[b]? = some book → 1 ≤ c → (∀ q ∈ qs, 0 < q) →
      advanceDays meta qs (b, c, book) = some (b', c', book') →
      meta[b']? = some book' ∧ b ≤ b' ∧ 1 ≤ c' ∧
      consumedAt meta b' c' = consumedAt meta b c + qs.sum := by
  intro qs
  induction qs with
  | nil =>
    intro b c book b' c' book' hb hc _ h
    rw [advanceDays_nil_eq] at h
    simp only [Option.some.injEq, Prod.mk.injEq] at h
    obtain ⟨rfl, rfl, rfl⟩ := h
    simp [hb, hc]
  | cons day rest ih =>
    intro b c book b' c' book' hb hc hqpos h
    have hday : 0 < day := hqpos day (List.mem_cons_self _ _)
    rw [advanceDays_cons_eq] at h
    split at h
    · exact absurd h (by simp)
    · rename_i s1 hadv
      obtain ⟨b1, c1, book1⟩ := s1
      unfold advanceLoop at hadv
      obtain ⟨hsync1, hble1, hc11, _, hcons1⟩ :=
        advanceLoopAux_spec meta (meta.drop (b + 1)) book b (c + day) b1 c1 book1
          hb rfl (by omega) hadv
      obtain ⟨hsync', hble', hc1', hcons'⟩ :=
        ih b1 c1 book1 b' c' book' hsync1 hc11
          (fun q hq => hqpos q (List.mem_cons_of_mem _ hq)) h
      refine ⟨hsync', by omega, hc1', ?_⟩
      rw [hcons', hcons1]
      have hs : (day :: rest).sum = day + rest.sum := List.sum_cons
      unfold consumedAt
      omega

theorem advanceDays_append (meta : List Book) :
    ∀ (qs1 qs2 : List Int) (s : Nat × Int × Book),
      advanceDays meta (qs1 ++ qs2) s =
        match advanceDays meta qs1 s with
        | none => none
        | some s' => advanceDays meta qs2 s' := by
  intro qs1
  induction qs1 with
  | nil => intro qs2 s; rfl
  | cons day rest ih =>
    intro qs2 s
    obtain ⟨b, c, book⟩ := s
    rw [List.cons_append, advanceDays_cons_eq, advanceDays_cons_eq]
    cases hadv : advanceLoop meta b (c + day) book with
    | none => rfl
    | some s' =>
      simp only [hadv]
      exact ih qs2 s'

/-- Correspondence between the day loop and the advance-state evolution:
when the loop succeeds, the cursor state at the start of rendering day
`i` (0-based) is the result of the first `i` advances, day `i` is rendered
from that state, and its row carries date `date + i`. -/
theorem generatePlanLoop_stateAt (meta : List Book) :
    ∀ (quotas : List Int) (b : Nat) (c : Int) (book : Book) (date : Int)
      (rows : List (Int × String)) (bf : Nat) (cf : Int),
      generatePlanLoop meta quotas b c book date = some (rows, bf, cf) →
      ∀ i, i < quotas.length →
        ∃ bi ci booki text,
          advanceDays meta (quotas.take i) (b, c, book) = some (bi, ci, booki) ∧
          getDayReadingText meta bi ci (quotas.getD i 0) = some text ∧
          rows[i]? = some (date + (i : Int), text) := by
  intro quotas
  induction quotas with
  | nil =>
    intro b c book date rows bf cf _ i hi
    exact absurd hi (by simp)
  | cons day rest ih =>
    intro b c book date rows bf cf h i hi
    cases i with
    | zero =>
      cases rest with
      | nil =>
        rw [generatePlanLoop_last_eq] at h
        split at h
        · exact absurd h (by simp)
        · rename_i text htext
          simp only [Option.some.injEq, Prod.mk.injEq] at h
          refine ⟨b, c, book, text, rfl, htext, ?_⟩
          rw [← h.1]
          simp
      | cons q2 rest2 =>
        rw [generatePlanLoop_cons_eq] at h
        split at h
        · exact absurd h (by simp)
        · rename_i text htext
          split at h
          · exact absurd h (by simp)
          · rename_i b1 c1 book1 hadv
            split at h
            · exact absurd h (by simp)
            · rename_i rows' bf' cf' hrec
              simp only [Option.some.injEq, Prod.mk.injEq] at h
              refine ⟨b, c, book, text, rfl, htext, ?_⟩
              rw [← h.1]
              simp
    | succ i =>
      cases rest with
      | nil =>
        simp at hi
      | cons q2 rest2 =>
        rw [generatePlanLoop_cons_eq] at h
        split at h
        · exact absurd h (by simp)
        · rename_i text htext
          split at h
          · exact absurd h (by simp)
          · rename_i b1 c1 book1 hadv
            split at h
            · exact absurd h (by simp)
            · rename_i rows' bf' cf' hrec
              simp only [Option.some.injEq, Prod.mk.injEq] at h
              have hi' : i < (q2 :: rest2).length := by
                simp at hi ⊢
                omega
              obtain ⟨bi, ci, booki, text2, h1, h2, h3⟩ :=
                ih b1 c1 book1 (date + 1) rows' bf' cf' hrec i hi'
              refine ⟨bi, ci, booki, text2, ?_, ?_, ?_⟩
              · rw [List.take_succ_cons, advanceDays_cons_eq]
                simp only [hadv]
                exact h1
              · rw [List.getD_cons_succ]
                exact h2
              · have harith : date + ((i + 1 : Nat) : Int) = date + 1 + (i : Int) := by
                  push_cast
                  ring
                rw [← h.1, List.getElem?_cons_succ, h3, harith]

/-- C10 (amended): when the day loop succeeds from the initial cursor
(0, 1), the cursor state at the start of rendering day `i` (0-based) is the
result of the first `i` advances; the units consumed there equal the sum of
the quotas of the previous days; the container index never decreases (and
with it the globally consumed position only moves forward), while the
position within the container may decrease at a container rollover; and day
`i` is rendered exactly from that state. -/
theorem cursor_consumed_invariant (meta : List Book) (quotas : List Int)
    (book0 : Book) (start : Int) (rows : List (Int × String)) (bf : Nat)
    (cf : Int) (hm : meta[0]? = some book0)
    (hqpos : ∀ q ∈ quotas, 0 < q)
    (h : generatePlanLoop meta quotas 0 1 book0 start = some (rows, bf, cf)) :
    ∀ i, i < quotas.length →
      ∃ bi ci booki,
        advanceDays meta (quotas.take i) (0, 1, book0) = some (bi, ci, booki) ∧
        consumedAt meta bi ci = (quotas.take i).sum ∧
        (∀ j, j ≤ i → ∀ bj cj bookj,
          advanceDays meta (quotas.take j) (0, 1, book0) = some (bj, cj, bookj) →
          bj ≤ bi) ∧
        ∃ text, getDayReadingText meta bi ci (quotas.getD i 0) = some text ∧
          rows[i]? = some (start + (i : Int), text) := by
  intro i hi
  obtain ⟨bi, ci, booki, text, hadv, htext, hrow⟩ :=
    generatePlanLoop_stateAt meta quotas 0 1 book0 start rows bf cf h i hi
  obtain ⟨hsync, hble, hc1, hcons⟩ :=
    advanceDays_spec meta (quotas.take i) 0 1 book0 bi ci booki hm le_rfl
      (fun q hq => hqpos q (List.take_subset _ _ hq)) hadv
  refine ⟨bi, ci, booki, hadv, ?_, ?_, text, htext, hrow⟩
  · rw [hcons]
    have h0 : consumedAt meta 0 1 = 0 := by
      unfold consumedAt capsBefore
      simp
    omega
  · intro j hj bj cj bookj hadvj
    have hdec : quotas.take i = quotas.take j ++ ((quotas.take i).drop j) := by
      conv_lhs => rw [← List.take_append_drop j (quotas.take i)]
      rw [List.take_take, Nat.min_eq_left hj]
    rw [hdec, advanceDays_append] at hadv
    simp only [hadvj] at hadv
    obtain ⟨hsyncj, _, hc1j, _⟩ :=
      advanceDays_spec meta (quotas.take j) 0 1 book0 bj cj bookj hm le_rfl
        (fun q hq => hqpos q (List.take_subset _ _ hq)) hadvj
    obtain ⟨_, hmono, _, _⟩ :=
      advanceDays_spec meta ((quotas.take i).drop j) bj cj bookj bi ci booki
        hsyncj hc1j
        (fun q hq => hqpos q (List.take_subset _ _ (List.drop_subset _ _ hq)))
        hadv
    exact hmono

/-- C10 witness: the invariant at the start of day 3 (index 2) of the
concrete example run. -/
theorem cursor_consumed_invariant_witness :
    (exampleBooks[0]? = some ⟨"Alpha", 5⟩ ∧
      (∀ q ∈ ([4, 2, 2] : List Int), 0 < q) ∧
      generatePlanLoop exampleBooks [4, 2, 2] 0 1 ⟨"Alpha", 5⟩ 0 =
        some ([(0, "Alpha 1-4"), (1, "Alpha 5; Beta 1"), (2, "Beta 2-3")], 1, 2) ∧
      2 < ([4, 2, 2] : List Int).length) ∧
    ∃ bi ci booki,
      advanceDays exampleBooks (([4, 2, 2] : List Int).take 2)
        (0, 1, ⟨"Alpha", 5⟩) = some (bi, ci, booki) ∧
      consumedAt exampleBooks bi ci = (([4, 2, 2] : List Int).take 2).sum ∧
      (∀ j, j ≤ 2 → ∀ bj cj bookj,
        advanceDays exampleBooks (([4, 2, 2] : List Int).take j)
          (0, 1, ⟨"Alpha", 5⟩) = some (bj, cj, bookj) → bj ≤ bi) ∧
      ∃ text, getDayReadingText exampleBooks bi ci
          (([4, 2, 2] : List Int).getD 2 0) = some text ∧
        ([(0, "Alpha 1-4"), (1, "Alpha 5; Beta 1"), (2, "Beta 2-3")]
          : List (Int × String))[2]? = some ((0 : Int) + (2 : Nat), text) :=
  ⟨by decide, cursor_consumed_invariant exampleBooks [4, 2, 2] ⟨"Alpha", 5⟩ 0
    [(0, "Alpha 1-4"), (1, "Alpha 5; Beta 1"), (2, "Beta 2-3")] 1 2
    (by decide) (by decide) (by decide) 2 (by decide)⟩

/-- C10 counterexample: in the concrete example run the cursor at the start
of day 2 is (0, 5) and at the start of day 3 is (1, 2); the position within
the container moved backward (5 to 2) across the rollover, so the claim
that both cursor components only move forward is false. -/
theorem cursor_position_cex :
    generatePlanLoop exampleBooks [4, 2, 2] 0 1 ⟨"Alpha", 5⟩ 0 =
      some ([(0, "Alpha 1-4"), (1, "Alpha 5; Beta 1"), (2, "Beta 2-3")], 1, 2) ∧
    advanceDays exampleBooks (([4, 2, 2] : List Int).take 1)
      (0, 1, ⟨"Alpha", 5⟩) = some (0, 5, ⟨"Alpha", 5⟩) ∧
    advanceDays exampleBooks (([4, 2, 2] : List Int).take 2)
      (0, 1, ⟨"Alpha", 5⟩) = some (1, 2, ⟨"Beta", 3⟩) ∧
    ¬ ((5 : Int) ≤ 2) :=
  ⟨by decide, by decide, by decide, by decide⟩

/-- The day loop emits exactly one row per quota. -/
theorem generatePlanLoop_length (meta : List Book) :
    ∀ (quotas : List Int) (b : Nat) (c : Int) (book : Book) (date : Int)
      (rows : List (Int × String)) (bf : Nat) (cf : Int),
      generatePlanLoop meta quotas b c book date = some (rows, bf, cf) →
      rows.length = quotas.length := by
  intro quotas
  induction quotas with
  | nil =>
    intro b c book date rows bf cf h
    rw [generatePlanLoop_nil_eq] at h
    simp only [Option.some.injEq, Prod.mk.injEq] at h
    rw [← h.1]
    rfl
  | cons day rest ih =>
    intro b c book date rows bf cf h
    cases rest with
    | nil =>
      rw [generatePlanLoop_last_eq] at h
      split at h
      · exact absurd h (by simp)
      · simp only [Option.some.injEq, Prod.mk.injEq] at h
        rw [← h.1]
        rfl
    | cons q2 rest2 =>
      rw [generatePlanLoop_cons_eq] at h
      split at h
      · exact absurd h (by simp)
      · split at h
        · exact absurd h (by simp)
        · split at h
          · exact absurd h (by simp)
          · rename_i rows' bf' cf' hrec
            simp only [Option.some.injEq, Prod.mk.injEq] at h
            rw [← h.1]
            simp only [List.length_cons]
            rw [ih _ _ _ _ rows' bf' cf' hrec]
            rfl

/-- C5: for `parts ≥ 1`, `split` raises the infeasible-partition ValueError
exactly when `total < parts`; `generate_plan` catches it and degrades to
one chapter per day for `total` days, so a successful plan then has exactly
`total` day entries. -/
theorem split_infeasible_fallback (x n : Nat) (hn : 1 ≤ n) :
    (split x n = none ↔ x < n) ∧
    (x < n → chaptersPerDayList x n = List.replicate x 1) ∧
    (x < n → ∀ (meta : List Book) (start : Int) (rows : List (Int × String))
      (bf : Nat) (cf : Int),
      generate_plan meta n start x = some (rows, bf, cf) →
      rows.length = x) := by
  refine ⟨⟨?_, ?_⟩, ?_, ?_⟩
  · intro h
    by_contra hx
    push_neg at hx
    by_cases hrem : x % n = 0
    · rw [split_of_dvd x n hn hx hrem] at h
      exact absurd h (by simp)
    · rw [split_of_rem x n hn hx hrem] at h
      exact absurd h (by simp)
  · intro h
    unfold split
    rw [if_pos h]
  · intro hx
    have hsplit : split x n = none := by
      unfold split
      rw [if_pos hx]
    unfold chaptersPerDayList
    rw [hsplit]
  · intro hx meta start rows bf cf h
    have hsplit : split x n = none := by
      unfold split
      rw [if_pos hx]
    have hcpd : chaptersPerDayList x n = List.replicate x 1 := by
      unfold chaptersPerDayList
      rw [hsplit]
    unfold generate_plan at h
    split at h
    · exact absurd h (by simp)
    · have hlen := generatePlanLoop_length _ _ 0 1 _ start rows bf cf h
      rw [hlen, hcpd, List.length_map, List.length_replicate]

/-- C5 witness: total = 2 chapters over parts = 3 days is infeasible; the
fallback quota list is [1, 1] and any successful plan has 2 rows. -/
theorem split_infeasible_fallback_witness :
    (1 ≤ 3) ∧
    ((split 2 3 = none ↔ 2 < 3) ∧
      (2 < 3 → chaptersPerDayList 2 3 = List.replicate 2 1) ∧
      (2 < 3 → ∀ (meta : List Book) (start : Int)
        (rows : List (Int × String)) (bf : Nat) (cf : Int),
        generate_plan meta 3 start 2 = some (rows, bf, cf) →
        rows.length = 2)) :=
  ⟨by decide, split_infeasible_fallback 2 3 (by decide)⟩

theorem splitBlock_head (pp hi lo : Nat) (hhi : 1 ≤ hi) (hlo : 1 ≤ lo) :
    ∃ t, splitBlock pp hi lo = pp :: (pp + 1) :: t := by
  unfold splitBlock
  split
  · obtain ⟨lo', rfl⟩ : ∃ lo', lo = lo' + 1 := ⟨lo - 1, by omega⟩
    exact ⟨(List.replicate lo' [pp, pp + 1]).flatten ++
      List.replicate (hi - (lo' + 1)) (pp + 1), by
      rw [List.replicate_succ, List.flatten_cons]
      rfl⟩
  · obtain ⟨hi', rfl⟩ : ∃ hi', hi = hi' + 1 := ⟨hi - 1, by omega⟩
    exact ⟨(List.replicate hi' [pp, pp + 1]).flatten ++
      List.replicate (lo - (hi' + 1)) pp, by
      rw [List.replicate_succ, List.flatten_cons]
      rfl⟩

theorem flatten_replicate_head {α : Type} (g : Nat) (hg : 1 ≤ g) (B : List α)
    (a b : α) (t : List α) (hB : B = a :: b :: t) :
    ((List.replicate g B).flatten)[0]? = some a ∧
    ((List.replicate g B).flatten)[1]? = some b := by
  obtain ⟨g', rfl⟩ : ∃ g', g = g' + 1 := ⟨g - 1, by omega⟩
  rw [List.replicate_succ, List.flatten_cons, hB]
  constructor <;> simp

theorem splitBlock_eq_interleaveBlock (x n : Nat) (hn : 1 ≤ n) (hrem : x % n ≠ 0) :
    splitBlock (x / n) ((x % n) / Nat.gcd (x % n) (n - x % n))
        ((n - x % n) / Nat.gcd (x % n) (n - x % n)) =
      interleaveBlock (x / n) (x % n) (n - x % n)
        (Nat.gcd (x % n) (n - x % n)) := by
  obtain ⟨hg, hmulhi, hmullo, hhi1, hlo1⟩ := split_gcd_facts x n hn hrem
  set g := Nat.gcd (x % n) (n - x % n) with hgdef
  set hi := (x % n) / g with hhidef
  set lo := (n - x % n) / g with hlodef
  have hx1 : x % n = g * hi := hmulhi.symm
  have hx2 : n - x % n = g * lo := hmullo.symm
  have horder : (lo < hi) ↔ (n - x % n < x % n) := by
    rw [hx2, hx1]
    exact (Nat.mul_lt_mul_left hg).symm
  unfold splitBlock interleaveBlock
  by_cases hcase : lo < hi
  · rw [if_pos hcase, if_pos (horder.1 hcase)]
    have hmin : min (x % n) (n - x % n) = n - x % n := by omega
    have hmax : max (x % n) (n - x % n) = x % n := by omega
    rw [hmin, hmax]
    have hdiff : (x % n - (n - x % n)) / g = hi - lo := by
      have hsub : x % n - (n - x % n) = (hi - lo) * g := by
        rw [hx2, hx1, Nat.mul_comm g hi, Nat.mul_comm g lo, ← Nat.sub_mul]
      rw [hsub, Nat.mul_div_cancel _ hg]
    rw [hdiff, ← hlodef]
  · rw [if_neg hcase, if_neg (fun hlt => hcase (horder.2 hlt))]
    have hord2 : x % n ≤ n - x % n := by omega
    have hmin : min (x % n) (n - x % n) = x % n := by omega
    have hmax : max (x % n) (n - x % n) = n - x % n := by omega
    rw [hmin, hmax]
    have hdiff : ((n - x % n) - x % n) / g = lo - hi := by
      have hsub : (n - x % n) - x % n = (lo - hi) * g := by
        rw [hx2, hx1, Nat.mul_comm g hi, Nat.mul_comm g lo, ← Nat.sub_mul]
      rw [hsub, Nat.mul_div_cancel _ hg]
    rw [hdiff, ← hhidef]

/-- C6: for a partition with non-zero remainder, the output of `split` is
exactly `g = gcd(hi_count, lo_count)` identical copies of the
GCD-normalized interleave block (pairs small-then-large, then the excess
majority-size parts); in particular the first element is the base size and
the second is base + 1, and the output is deterministic. -/
theorem split_gcd_interleave (x n : Nat) (hn : 1 ≤ n) (hxn : n ≤ x)
    (hrem : x % n ≠ 0) :
    ∃ l, split x n = some l ∧
      l = (List.replicate (Nat.gcd (x % n) (n - x % n))
        (interleaveBlock (x / n) (x % n) (n - x % n)
          (Nat.gcd (x % n) (n - x % n)))).flatten ∧
      l[0]? = some (x / n) ∧ l[1]? = some (x / n + 1) ∧
      (∀ l2, split x n = some l2 → l2 = l) := by
  obtain ⟨hg, hmulhi, hmullo, hhi1, hlo1⟩ := split_gcd_facts x n hn hrem
  have hsplit := split_of_rem x n hn hxn hrem
  refine ⟨_, hsplit, ?_, ?_, ?_, ?_⟩
  · rw [splitBlock_eq_interleaveBlock x n hn hrem]
  · obtain ⟨t, ht⟩ := splitBlock_head (x / n)
      ((x % n) / Nat.gcd (x % n) (n - x % n))
      ((n - x % n) / Nat.gcd (x % n) (n - x % n)) hhi1 hlo1
    exact (flatten_replicate_head _ hg _ _ _ _ ht).1
  · obtain ⟨t, ht⟩ := splitBlock_head (x / n)
      ((x % n) / Nat.gcd (x % n) (n - x % n))
      ((n - x % n) / Nat.gcd (x % n) (n - x % n)) hhi1 hlo1
    exact (flatten_replicate_head _ hg _ _ _ _ ht).2
  · intro l2 h2
    rw [hsplit] at h2
    injection h2 with h3
    rw [← h3]

/-- C6 witness: total = 7, parts = 3 — base 2, one (2, 3) pair then one
extra small part per block. -/
theorem split_gcd_interleave_witness :
    (1 ≤ 3 ∧ 3 ≤ 7 ∧ 7 % 3 ≠ 0) ∧
    ∃ l, split 7 3 = some l ∧
      l = (List.replicate (Nat.gcd (7 % 3) (3 - 7 % 3))
        (interleaveBlock (7 / 3) (7 % 3) (3 - 7 % 3)
          (Nat.gcd (7 % 3) (3 - 7 % 3)))).flatten ∧
      l[0]? = some (7 / 3) ∧ l[1]? = some (7 / 3 + 1) ∧
      (∀ l2, split 7 3 = some l2 → l2 = l) :=
  ⟨by decide, split_gcd_interleave 7 3 (by decide) (by decide) (by decide)⟩
